import Mathlib

/-!
Shallow embedding of the speculative-decoding step controllers of this
repository:

* `SpeculativeTuner` (python/sglang/srt/speculative/auto_tuner.py): a
  threshold tuner keeping, per batch size, a bounded window of
  (step, acceptance-rate) records and a cached step suggestion.
* `SpeculativeController` (python/sglang/srt/speculative/speculative_controller.py):
  an epsilon-greedy bandit keeping, per (batch-size bucket, step) key, a
  bounded window of (latency, accepted-tokens) records.

Python dictionaries become total functions (`Option` for dicts without a
default, the plain type for `defaultdict`), `collections.deque` with a
maximum length becomes a list with FIFO eviction on append, float
arithmetic becomes exact rational arithmetic, and the global random draws
consulted by `SpeculativeController.get_num_steps` become explicit
arguments (the draw of `random.random()` and the index drawn by
`random.choice`).
-/

namespace Spec2Proof

/-- Append on a Python `deque` of maximum length `m`: the new element goes to
the right and the oldest elements on the left are evicted so that at most `m`
remain. -/
def dequeAppend {α : Type} (m : Nat) (q : List α) (x : α) : List α :=
  (q ++ [x]).drop (q.length + 1 - m)

/-! ### SpeculativeTuner (auto_tuner.py) -/

/-- State of `SpeculativeTuner`.  `bs_to_step` maps a batch size to the
current step suggestion; `history` maps a batch size to a deque of
(step, acceptance_rate) records bounded by `window_size`. -/
structure SpeculativeTuner where
  max_step : Nat
  window_size : Nat
  target_acceptance_rate : ℚ
  bs_to_step : Nat → Option Nat
  history : Nat → Option (List (Nat × ℚ))

/-- `SpeculativeTuner.__init__`: both dictionaries start empty.  The default
arguments in the source are `window_size` 10 and `target_acceptance_rate`
0.6. -/
def SpeculativeTuner.mk0 (max_step window_size : Nat) (target_acceptance_rate : ℚ) :
    SpeculativeTuner :=
  ⟨max_step, window_size, target_acceptance_rate, fun _ => none, fun _ => none⟩

/-- `SpeculativeTuner.get_step`: if the batch size has no entry yet, insert
`max_step` (optimistic initialization); return the entry.  The Python method
mutates the dictionary, so the embedding returns the new state together with
the returned step. -/
def SpeculativeTuner.get_step (t : SpeculativeTuner) (batch_size : Nat) :
    SpeculativeTuner × Nat :=
  match t.bs_to_step batch_size with
  | some s => (t, s)
  | none =>
      ({ t with bs_to_step := fun b =>
          if b = batch_size then some t.max_step else t.bs_to_step b },
        t.max_step)

/-- `SpeculativeTuner._adjust_step`: look at the records of the current
window whose step equals the currently suggested step; if there are none,
return; otherwise compare their mean rate against
`target_acceptance_rate ± 0.1` and move the suggestion by one, clamped to
`[1, max_step]`. -/
def SpeculativeTuner.adjust_step (t : SpeculativeTuner) (batch_size : Nat) :
    SpeculativeTuner :=
  let current_step := (t.bs_to_step batch_size).getD t.max_step
  let recent_records :=
    ((t.history batch_size).getD []).filter (fun r => r.1 = current_step)
  if recent_records.isEmpty then t
  else
    let avg_rate := (recent_records.map Prod.snd).sum / (recent_records.length : ℚ)
    let new_step :=
      if t.target_acceptance_rate + 1/10 < avg_rate then
        min t.max_step (current_step + 1)
      else if avg_rate < t.target_acceptance_rate - 1/10 then
        max 1 (current_step - 1)
      else current_step
    { t with bs_to_step := fun b =>
        if b = batch_size then some new_step else t.bs_to_step b }

/-- `SpeculativeTuner.update`: a no-op when `drafted_tokens == 0`; otherwise
append `(step, accepted_tokens / drafted_tokens)` to the window of
`batch_size` (creating it when absent) and run `_adjust_step`. -/
def SpeculativeTuner.update (t : SpeculativeTuner) (batch_size step : Nat)
    (accepted_tokens drafted_tokens : ℤ) : SpeculativeTuner :=
  if drafted_tokens = 0 then t
  else
    let rate : ℚ := (accepted_tokens : ℚ) / (drafted_tokens : ℚ)
    let w := (t.history batch_size).getD []
    let t1 : SpeculativeTuner :=
      { t with history := fun b =>
          if b = batch_size then some (dequeAppend t.window_size w (step, rate))
          else t.history b }
    t1.adjust_step batch_size

/-- The effective step suggestion a subsequent `get_step` would return for a
batch size: the stored entry, or `max_step` when absent. -/
def SpeculativeTuner.suggestion (t : SpeculativeTuner) (batch_size : Nat) : Nat :=
  (t.bs_to_step batch_size).getD t.max_step

/-! ### SpeculativeController (speculative_controller.py) -/

/-- State of `SpeculativeController`.  `history` is a `defaultdict` sending a
(batch-size bucket, step) key to a deque of (latency, accepted-tokens)
records with maximum length 20; `last_decision` is a dictionary the source
declares but never writes. -/
structure SpeculativeController where
  max_steps : Nat
  step_candidates : List Nat
  history : Nat × Nat → List (ℚ × ℤ)
  warmup_samples : Nat
  exploration_rate : ℚ
  bs_bucket_size : Nat
  last_decision : Nat → Option Nat

/-- `SpeculativeController.__init__(initial_steps)`: candidates are
`1, ..., initial_steps`; `warmup_samples` 5, `exploration_rate` 0.10,
`bs_bucket_size` 4; the history default is the empty deque.  The
`tune_interval` parameter of the source is never stored. -/
def SpeculativeController.init (initial_steps : Nat) : SpeculativeController :=
  ⟨initial_steps, List.range' 1 initial_steps, fun _ => [], 5, 1/10, 4, fun _ => none⟩

/-- The batch-size bucket `(batch_size + bs_bucket_size - 1) // bs_bucket_size
* bs_bucket_size` computed at the top of `get_num_steps`, `update` and
`update_with_step`. -/
def SpeculativeController.bucketize (c : SpeculativeController) (batch_size : Nat) :
    Nat :=
  (batch_size + c.bs_bucket_size - 1) / c.bs_bucket_size * c.bs_bucket_size

/-- One iteration of the exploitation loop of `get_num_steps`: the
accumulator is the pair (best_step, max_tps); a candidate with an empty
window or a non-positive latency sum is skipped, otherwise its aggregate
tokens-per-second replaces the accumulator when strictly greater. -/
def SpeculativeController.exploitStep (c : SpeculativeController) (bs_bucket : Nat)
    (acc : Nat × ℚ) (step : Nat) : Nat × ℚ :=
  let samples := c.history (bs_bucket, step)
  if samples.isEmpty then acc
  else
    let total_latency := (samples.map Prod.fst).sum
    let total_tokens := (samples.map Prod.snd).sum
    if 0 < total_latency then
      let tps := (total_tokens : ℚ) / total_latency
      if acc.2 < tps then (step, tps) else acc
    else acc

/-- `SpeculativeController.get_num_steps`.  The two consultations of the
global random source are passed explicitly: `rand_draw` is the value of
`random.random()` compared against `exploration_rate`, and `rand_choice`
selects the index drawn by `random.choice` over the candidates.  First the
warmup branch returns the first candidate whose window holds fewer than
`warmup_samples` records; then the exploration branch; then the exploitation
loop starting from (1, -1.0) with fallback `max_steps` when no positive
throughput was found. -/
def SpeculativeController.get_num_steps (c : SpeculativeController)
    (batch_size : Nat) (rand_draw : ℚ) (rand_choice : Nat) : Nat :=
  let bs_bucket := c.bucketize batch_size
  match c.step_candidates.find?
      (fun step => decide ((c.history (bs_bucket, step)).length < c.warmup_samples)) with
  | some step => step
  | none =>
      if rand_draw < c.exploration_rate then
        c.step_candidates.getD (rand_choice % c.step_candidates.length) 1
      else
        let r := c.step_candidates.foldl (c.exploitStep bs_bucket) (1, -1)
        if 0 < r.2 then r.1 else c.max_steps

/-- `SpeculativeController.update`: the body returns early when
`latency <= 0`, and otherwise computes the bucket and ends in `pass` — it
never writes any field. -/
def SpeculativeController.update (c : SpeculativeController) (_batch_size : Nat)
    (_accept_lens : List ℤ) (latency : ℚ) : SpeculativeController :=
  if latency ≤ 0 then c else c

/-- `SpeculativeController.update_with_step`: append
`(latency, sum(accept_lens))` to the window of the (bucket, num_steps) key;
there is no guard on `latency`.  The periodic `logger.info` call has no
effect on the state. -/
def SpeculativeController.update_with_step (c : SpeculativeController)
    (batch_size num_steps : Nat) (accept_lens : List ℤ) (latency : ℚ) :
    SpeculativeController :=
  let bs_bucket := c.bucketize batch_size
  let total_accepted := accept_lens.sum
  { c with history := fun k =>
      if k = (bs_bucket, num_steps) then
        dequeAppend 20 (c.history (bs_bucket, num_steps)) (latency, total_accepted)
      else c.history k }

/-- Aggregate throughput (tokens per second) of the window of a
(bucket, step) key: `sum(accepted_tokens) / sum(latency)`. -/
def SpeculativeController.tpsOf (c : SpeculativeController) (bs_bucket step : Nat) :
    ℚ :=
  (((c.history (bs_bucket, step)).map Prod.snd).sum : ℚ) /
    ((c.history (bs_bucket, step)).map Prod.fst).sum

/-- The exploitation decision in the words of the spec: take the first
candidate (in candidate order, so ties are won by the earlier candidate)
whose aggregate throughput is greatest; return it when its throughput is
positive, and fall back to `max_steps` otherwise.  This definition follows
the spec's sentence and is compared against `get_num_steps` from the
source. -/
def SpeculativeController.specExploit (c : SpeculativeController) (bs_bucket : Nat) :
    Nat :=
  match c.step_candidates.find?
      (fun s => decide (∀ s2 ∈ c.step_candidates,
        c.tpsOf bs_bucket s2 ≤ c.tpsOf bs_bucket s)) with
  | some s => if 0 < c.tpsOf bs_bucket s then s else c.max_steps
  | none => c.max_steps

/-- Apply a list of `(step, accepted_tokens, drafted_tokens)` update inputs
to a tuner, all at one batch size. -/
def SpeculativeTuner.runUpdates (t : SpeculativeTuner) (batch_size : Nat)
    (inputs : List (Nat × ℤ × ℤ)) : SpeculativeTuner :=
  inputs.foldl (fun t r => t.update batch_size r.1 r.2.1 r.2.2) t

/-- Apply a list of `(accept_lens, latency)` update inputs to a controller,
all at one batch size and one step count, through `update_with_step`. -/
def SpeculativeController.runUpdates (c : SpeculativeController)
    (batch_size num_steps : Nat) (inputs : List (List ℤ × ℚ)) :
    SpeculativeController :=
  inputs.foldl (fun c r => c.update_with_step batch_size num_steps r.1 r.2) c

/-- States of `SpeculativeTuner` reachable from construction with the given
arguments by any sequence of `get_step` and `update` calls. -/
inductive TunerReach (max_step window_size : Nat) (target : ℚ) :
    SpeculativeTuner → Prop
  | init : TunerReach max_step window_size target
      (SpeculativeTuner.mk0 max_step window_size target)
  | get_step {t : SpeculativeTuner} (batch_size : Nat) :
      TunerReach max_step window_size target t →
      TunerReach max_step window_size target (t.get_step batch_size).1
  | update {t : SpeculativeTuner} (batch_size step : Nat)
      (accepted_tokens drafted_tokens : ℤ) :
      TunerReach max_step window_size target t →
      TunerReach max_step window_size target
        (t.update batch_size step accepted_tokens drafted_tokens)

/-- States of `SpeculativeController` reachable from
`SpeculativeController.init initial_steps` by any sequence of calls
(`get_num_steps` reads but never writes the state). -/
inductive CtrlReach (initial_steps : Nat) : SpeculativeController → Prop
  | init : CtrlReach initial_steps (SpeculativeController.init initial_steps)
  | update {c : SpeculativeController} (batch_size : Nat) (accept_lens : List ℤ)
      (latency : ℚ) :
      CtrlReach initial_steps c →
      CtrlReach initial_steps (c.update batch_size accept_lens latency)
  | update_with_step {c : SpeculativeController} (batch_size num_steps : Nat)
      (accept_lens : List ℤ) (latency : ℚ) :
      CtrlReach initial_steps c →
      CtrlReach initial_steps
        (c.update_with_step batch_size num_steps accept_lens latency)

/-- One call against a `SpeculativeTuner`. -/
inductive TunerOp where
  | getStep (batch_size : Nat)
  | updateOp (batch_size step : Nat) (accepted_tokens drafted_tokens : ℤ)

/-- Execute one call: the new tuner state and the value returned to the
caller (`update` returns nothing). -/
def SpeculativeTuner.execOp (t : SpeculativeTuner) : TunerOp → SpeculativeTuner × Option Nat
  | .getStep bs => ((t.get_step bs).1, some (t.get_step bs).2)
  | .updateOp bs step a d => (t.update bs step a d, none)

/-- Big-step run of a call sequence against a tuner, relating the initial
state and the op list to the final state and the list of returned values. -/
inductive TunerRun :
    SpeculativeTuner → List TunerOp → SpeculativeTuner → List (Option Nat) → Prop
  | nil {t : SpeculativeTuner} : TunerRun t [] t []
  | cons {t t2 : SpeculativeTuner} {ops : List TunerOp} {outs : List (Option Nat)}
      (op : TunerOp) :
      TunerRun (t.execOp op).1 ops t2 outs →
      TunerRun t (op :: ops) t2 ((t.execOp op).2 :: outs)

/-- One observable outcome of `SpeculativeController.get_num_steps`: the
global random source may supply any draw in `[0, 1)` and any choice index,
so one state admits several outcomes. -/
inductive CtrlGet : SpeculativeController → Nat → Nat → Prop
  | draw (c : SpeculativeController) (batch_size : Nat) (r : ℚ) (i : Nat)
      (h0 : 0 ≤ r) (h1 : r < 1) :
      CtrlGet c batch_size (c.get_num_steps batch_size r i)

/-! ### Concrete states used by the scenario claims -/

/-- The controller of the warmup scenario: three candidates and
`warmup_samples` lowered to 2. -/
def c4Init : SpeculativeController :=
  { SpeculativeController.init 3 with warmup_samples := 2 }

/-- Run the warmup scenario: six times, ask for a decision at batch size 4
and feed back one `update_with_step` recording the decided step with
latency 1; collect the six decisions. -/
def c4Run : SpeculativeController × List Nat :=
  (List.range 6).foldl (fun acc _ =>
    let d := acc.1.get_num_steps 4 (1/2) 0
    (acc.1.update_with_step 4 d [1] 1, acc.2 ++ [d])) (c4Init, [])

/-- History of the bandit scenario: for bucket 8 the three candidates are
past warmup (five records each) with aggregate throughputs 30, 50 and 40
tokens per second. -/
def c3hist : Nat × Nat → List (ℚ × ℤ) := fun k =>
  if k = (8, 1) then [(1/5, 6), (1/5, 6), (1/5, 6), (1/5, 6), (1/5, 6)]
  else if k = (8, 2) then [(1/5, 10), (1/5, 10), (1/5, 10), (1/5, 10), (1/5, 10)]
  else if k = (8, 3) then [(1/5, 8), (1/5, 8), (1/5, 8), (1/5, 8), (1/5, 8)]
  else []

/-- The controller of the bandit scenario. -/
def c3Ctrl : SpeculativeController :=
  { SpeculativeController.init 3 with history := c3hist }

/-- History for bucket 8 in which candidate 1's window was filled with
corrupt (negative-latency) samples, which `update_with_step` accepts: its
latency sum is −1 and its token sum −30, so its aggregate throughput
`sum(accepted)/sum(latency)` is +30 — larger than candidate 2's 10 and
candidate 3's 5. -/
def cexHist : Nat × Nat → List (ℚ × ℤ) := fun k =>
  if k = (8, 1) then
    [(-(1/5), -6), (-(1/5), -6), (-(1/5), -6), (-(1/5), -6), (-(1/5), -6)]
  else if k = (8, 2) then [(1/5, 2), (1/5, 2), (1/5, 2), (1/5, 2), (1/5, 2)]
  else if k = (8, 3) then [(1/5, 1), (1/5, 1), (1/5, 1), (1/5, 1), (1/5, 1)]
  else []

/-- A controller whose candidate-1 window holds corrupt timing samples. -/
def cexCtrl : SpeculativeController :=
  { SpeculativeController.init 3 with history := cexHist }

/-! ### Theorems -/

attribute [local semireducible] Rat.add Rat.mul Rat.inv Rat.sub

/-- C7: `SpeculativeTuner.update` called with `drafted_tokens = 0` is a
no-op: for every batch size, step and accepted-token count it returns the
state unchanged, so every history window and every step suggestion is
unchanged. -/
theorem tuner_update_zero_drafted_noop (t : SpeculativeTuner)
    (batch_size step : Nat) (accepted_tokens : ℤ) :
    t.update batch_size step accepted_tokens 0 = t := by
  simp [SpeculativeTuner.update]

/-- C9: the bandit controller's `update` entry point is an unimplemented
placeholder: on every input it returns the state unchanged, so the history,
the cached decisions and the configuration are all untouched. -/
theorem controller_update_placeholder_noop (c : SpeculativeController)
    (batch_size : Nat) (accept_lens : List ℤ) (latency : ℚ) :
    c.update batch_size accept_lens latency = c := by
  simp [SpeculativeController.update]

/-- C8: the first `get_step` call for a batch size (no entry in
`bs_to_step` yet) returns `max_step`, and two consecutive `get_step` calls
for the same batch size with no intervening `update` return identical
values. -/
theorem get_step_optimistic_and_idempotent :
    (∀ (t : SpeculativeTuner) (b : Nat), t.bs_to_step b = none →
        (t.get_step b).2 = t.max_step) ∧
    (∀ (t : SpeculativeTuner) (b : Nat),
        ((t.get_step b).1.get_step b).2 = (t.get_step b).2) := by
  constructor
  · intro t b h
    simp [SpeculativeTuner.get_step, h]
  · intro t b
    rcases hb : t.bs_to_step b with _ | s
    · simp [SpeculativeTuner.get_step, hb]
    · simp [SpeculativeTuner.get_step, hb]

/-- Witness for C8: on a freshly constructed tuner with `max_step` 3 the
first `get_step` call returns `max_step`. -/
theorem get_step_optimistic_witness :
    ((SpeculativeTuner.mk0 3 10 (6/10)).get_step 2).2 =
      (SpeculativeTuner.mk0 3 10 (6/10)).max_step :=
  get_step_optimistic_and_idempotent.1 (SpeculativeTuner.mk0 3 10 (6/10)) 2 rfl

/-- Counterexample to C1 as stated: `update_with_step` with latency −1 ≤ 0
is not a no-op — it appends the record to the (bucket 4, step 1) window,
which changes from empty to a one-record window. -/
theorem update_with_step_nonpos_latency_not_noop :
    (-1 : ℚ) ≤ 0 ∧
    ((SpeculativeController.init 3).update_with_step 1 1 [2] (-1)).history (4, 1) =
      [((-1 : ℚ), (2 : ℤ))] ∧
    (SpeculativeController.init 3).history (4, 1) = [] :=
  ⟨by decide, rfl, rfl⟩

/-- C1 amended: `update_with_step` applies no latency guard.  Even for
`latency ≤ 0` it appends `(latency, sum(accept_lens))` to the
(bucket, num_steps) window exactly as for any other call, leaving every
other window and the cached decisions unchanged; the `latency <= 0` early
return exists only in the placeholder `update`. -/
theorem update_with_step_nonpos_latency_appends (c : SpeculativeController)
    (batch_size num_steps : Nat) (accept_lens : List ℤ) (latency : ℚ)
    (_h : latency ≤ 0) :
    (c.update_with_step batch_size num_steps accept_lens latency).history
        (c.bucketize batch_size, num_steps) =
      dequeAppend 20 (c.history (c.bucketize batch_size, num_steps))
        (latency, accept_lens.sum) ∧
    (∀ k, k ≠ (c.bucketize batch_size, num_steps) →
      (c.update_with_step batch_size num_steps accept_lens latency).history k =
        c.history k) ∧
    (c.update_with_step batch_size num_steps accept_lens latency).last_decision =
      c.last_decision := by
  refine ⟨?_, ?_, rfl⟩
  · simp [SpeculativeController.update_with_step]
  · intro k hk
    simp [SpeculativeController.update_with_step, hk]

/-- Witness for the amended C1 at latency −1 on a fresh controller. -/
theorem update_with_step_nonpos_latency_appends_witness :
    ((SpeculativeController.init 3).update_with_step 1 1 [2] (-1)).history (4, 1) =
      dequeAppend 20 ((SpeculativeController.init 3).history (4, 1)) (-1, 2) ∧
    (∀ k, k ≠ ((4 : Nat), (1 : Nat)) →
      ((SpeculativeController.init 3).update_with_step 1 1 [2] (-1)).history k =
        (SpeculativeController.init 3).history k) ∧
    ((SpeculativeController.init 3).update_with_step 1 1 [2] (-1)).last_decision =
      (SpeculativeController.init 3).last_decision :=
  update_with_step_nonpos_latency_appends (SpeculativeController.init 3) 1 1 [2]
    (-1) (by decide)

/-- C2: after an `update` with `drafted_tokens ≠ 0`, the new suggestion for
that batch size is exactly: restrict the post-append window to records whose
step equals the currently suggested step; if no record matches, the
suggestion is unchanged; otherwise take the arithmetic mean of their rates
and apply hysteresis — mean above `target + 0.1` increases the step by 1
capped at `max_step`, mean below `target − 0.1` decreases it by 1 floored at
1, and a mean inside the closed band leaves the suggestion unchanged. -/
theorem tuner_update_recomputes_suggestion (t : SpeculativeTuner)
    (batch_size step : Nat) (accepted_tokens drafted_tokens : ℤ)
    (h : drafted_tokens ≠ 0) :
    (t.update batch_size step accepted_tokens drafted_tokens).suggestion batch_size =
      (let rate : ℚ := (accepted_tokens : ℚ) / (drafted_tokens : ℚ)
       let w := dequeAppend t.window_size ((t.history batch_size).getD [])
         (step, rate)
       let matching := w.filter (fun r => r.1 = t.suggestion batch_size)
       if matching.isEmpty then t.suggestion batch_size
       else
         let mean := (matching.map Prod.snd).sum / (matching.length : ℚ)
         if t.target_acceptance_rate + 1/10 < mean then
           min t.max_step (t.suggestion batch_size + 1)
         else if mean < t.target_acceptance_rate - 1/10 then
           max 1 (t.suggestion batch_size - 1)
         else t.suggestion batch_size) := by
  simp only [SpeculativeTuner.update, if_neg h, SpeculativeTuner.adjust_step,
    SpeculativeTuner.suggestion, if_true, Option.getD_some]
  split <;> rename_i hc <;> simp [hc]

/-- Witness for C2: a fresh tuner with `max_step` 3, one update at rate 0.9
above the hysteresis band; both sides evaluate on the concrete input. -/
theorem tuner_update_recomputes_suggestion_witness :
    ((SpeculativeTuner.mk0 3 10 (6/10)).update 2 3 9 10).suggestion 2 =
      (let rate : ℚ := ((9 : ℤ) : ℚ) / ((10 : ℤ) : ℚ)
       let w := dequeAppend (SpeculativeTuner.mk0 3 10 (6/10)).window_size
         (((SpeculativeTuner.mk0 3 10 (6/10)).history 2).getD []) (3, rate)
       let matching := w.filter
         (fun r => r.1 = (SpeculativeTuner.mk0 3 10 (6/10)).suggestion 2)
       if matching.isEmpty then (SpeculativeTuner.mk0 3 10 (6/10)).suggestion 2
       else
         let mean := (matching.map Prod.snd).sum / (matching.length : ℚ)
         if (SpeculativeTuner.mk0 3 10 (6/10)).target_acceptance_rate + 1/10 < mean then
           min (SpeculativeTuner.mk0 3 10 (6/10)).max_step
             ((SpeculativeTuner.mk0 3 10 (6/10)).suggestion 2 + 1)
         else if mean < (SpeculativeTuner.mk0 3 10 (6/10)).target_acceptance_rate - 1/10 then
           max 1 ((SpeculativeTuner.mk0 3 10 (6/10)).suggestion 2 - 1)
         else (SpeculativeTuner.mk0 3 10 (6/10)).suggestion 2) :=
  tuner_update_recomputes_suggestion (SpeculativeTuner.mk0 3 10 (6/10)) 2 3 9 10
    (by decide)

/-- `List.find?` only depends on the predicate's values on the list's
members. -/
theorem find?_congr_mem {α : Type} {p q : α → Bool} {l : List α}
    (h : ∀ a ∈ l, p a = q a) : l.find? p = l.find? q := by
  induction l with
  | nil => rfl
  | cons x xs ih =>
    rw [List.find?_cons, List.find?_cons, h x (List.mem_cons_self x xs)]
    cases hq : q x with
    | true => rfl
    | false => exact ih (fun a ha => h a (List.mem_cons_of_mem _ ha))

/-- `List.foldl` only depends on the folded function's values at the list's
members. -/
theorem foldl_congr_mem {α β : Type} {f g : β → α → β} :
    ∀ (l : List α) (b : β), (∀ b2, ∀ a ∈ l, f b2 a = g b2 a) →
      l.foldl f b = l.foldl g b := by
  intro l
  induction l with
  | nil => intro b _; rfl
  | cons x xs ih =>
    intro b h
    rw [List.foldl_cons, List.foldl_cons, h b x (List.mem_cons_self x xs)]
    exact ih _ (fun b2 a ha => h b2 a (List.mem_cons_of_mem _ ha))

/-- Every nonempty list has a member on which `f` is greatest. -/
theorem exists_max_mem (f : Nat → ℚ) :
    ∀ (l : List Nat), l ≠ [] → ∃ z ∈ l, ∀ a ∈ l, f a ≤ f z := by
  intro l
  induction l with
  | nil => intro h; cases h rfl
  | cons x xs ih =>
    intro _
    rcases eq_or_ne xs [] with hxs | hxs
    · subst hxs
      refine ⟨x, List.mem_cons_self x [], ?_⟩
      intro a ha
      rcases List.mem_cons.mp ha with h | h
      · subst h; exact le_refl _
      · cases h
    · obtain ⟨z, hz, hmax⟩ := ih hxs
      rcases le_total (f z) (f x) with hle | hle
      · refine ⟨x, List.mem_cons_self x xs, ?_⟩
        intro a ha
        rcases List.mem_cons.mp ha with h | h
        · subst h; exact le_refl _
        · exact le_trans (hmax a h) hle
      · refine ⟨z, List.mem_cons_of_mem _ hz, ?_⟩
        intro a ha
        rcases List.mem_cons.mp ha with h | h
        · subst h; exact hle
        · exact hmax a h

/-- The initial accumulator bounds a max-fold from below. -/
theorem init_le_foldl_max (f : Nat → ℚ) :
    ∀ (l : List Nat) (m0 : ℚ), m0 ≤ l.foldl (fun m s => max m (f s)) m0 := by
  intro l
  induction l with
  | nil => intro m0; exact le_refl _
  | cons x xs ih =>
    intro m0
    rw [List.foldl_cons]
    exact le_trans (le_max_left _ _) (ih _)

/-- Every member's value bounds a max-fold from below. -/
theorem le_foldl_max (f : Nat → ℚ) :
    ∀ (l : List Nat) (m0 : ℚ) (a : Nat), a ∈ l →
      f a ≤ l.foldl (fun m s => max m (f s)) m0 := by
  intro l
  induction l with
  | nil => intro m0 a ha; cases ha
  | cons x xs ih =>
    intro m0 a ha
    rw [List.foldl_cons]
    rcases List.mem_cons.mp ha with h | h
    · subst h
      exact le_trans (le_max_right _ _) (init_le_foldl_max f xs _)
    · exact ih _ a h

/-- A max-fold is bounded by any common upper bound of the initial
accumulator and all member values. -/
theorem foldl_max_le (f : Nat → ℚ) :
    ∀ (l : List Nat) (m0 b : ℚ), m0 ≤ b → (∀ a ∈ l, f a ≤ b) →
      l.foldl (fun m s => max m (f s)) m0 ≤ b := by
  intro l
  induction l with
  | nil => intro m0 b h _; exact h
  | cons x xs ih =>
    intro m0 b h hall
    rw [List.foldl_cons]
    exact ih _ _ (max_le h (hall x (List.mem_cons_self x xs)))
      (fun a ha => hall a (List.mem_cons_of_mem _ ha))

/-- Characterization of the strict arg-max fold of the exploitation loop:
its result is the first member strictly exceeding the initial accumulator
value that is at least every member's value, paired with the running
maximum. -/
theorem foldl_pickMax (f : Nat → ℚ) :
    ∀ (l : List Nat) (b0 : Nat) (m0 : ℚ),
      l.foldl (fun acc s => if acc.2 < f s then (s, f s) else acc) (b0, m0) =
        ((l.find? (fun s => decide (m0 < f s ∧ ∀ s2 ∈ l, f s2 ≤ f s))).getD b0,
          l.foldl (fun m s => max m (f s)) m0) := by
  intro l
  induction l with
  | nil => intro b0 m0; rfl
  | cons x xs ih =>
    intro b0 m0
    rw [List.foldl_cons, List.foldl_cons]
    by_cases hx : m0 < f x
    · rw [if_pos hx, ih x (f x), max_eq_right (le_of_lt hx)]
      by_cases hall : ∀ s2 ∈ xs, f s2 ≤ f x
      · have hpred : decide (m0 < f x ∧ ∀ s2 ∈ x :: xs, f s2 ≤ f x) = true := by
          simp only [decide_eq_true_eq]
          refine ⟨hx, ?_⟩
          intro s2 hs2
          rcases List.mem_cons.mp hs2 with h | h
          · subst h; exact le_refl _
          · exact hall s2 h
        have hfind : List.find?
            (fun s => decide (m0 < f s ∧ ∀ s2 ∈ x :: xs, f s2 ≤ f s)) (x :: xs) =
            some x := List.find?_cons_of_pos xs hpred
        rw [hfind]
        have hnone : xs.find?
            (fun s => decide (f x < f s ∧ ∀ s2 ∈ xs, f s2 ≤ f s)) = none := by
          rw [List.find?_eq_none]
          intro a ha hpa
          exact absurd (hall a ha) (not_le.mpr (decide_eq_true_eq.mp hpa).1)
        rw [hnone]
        rfl
      · push_neg at hall
        obtain ⟨y, hymem, hylt⟩ := hall
        have hpred : ¬ (decide (m0 < f x ∧ ∀ s2 ∈ x :: xs, f s2 ≤ f x) = true) := by
          simp only [decide_eq_true_eq, not_and]
          intro _ hforall
          exact absurd (hforall y (List.mem_cons_of_mem _ hymem)) (not_le.mpr hylt)
        have hfind : List.find?
            (fun s => decide (m0 < f s ∧ ∀ s2 ∈ x :: xs, f s2 ≤ f s)) (x :: xs) =
            List.find? (fun s => decide (m0 < f s ∧ ∀ s2 ∈ x :: xs, f s2 ≤ f s)) xs :=
          List.find?_cons_of_neg xs hpred
        rw [hfind]
        have hcongr : xs.find? (fun s => decide (m0 < f s ∧ ∀ s2 ∈ x :: xs, f s2 ≤ f s)) =
            xs.find? (fun s => decide (f x < f s ∧ ∀ s2 ∈ xs, f s2 ≤ f s)) := by
          apply find?_congr_mem
          intro a _
          apply decide_eq_decide.mpr
          constructor
          · intro ⟨_, hforall⟩
            exact ⟨lt_of_lt_of_le hylt (hforall y (List.mem_cons_of_mem _ hymem)),
              fun s2 hs2 => hforall s2 (List.mem_cons_of_mem _ hs2)⟩
          · intro ⟨hfa, hforall⟩
            refine ⟨lt_trans hx hfa, ?_⟩
            intro s2 hs2
            rcases List.mem_cons.mp hs2 with h | h
            · subst h; exact le_of_lt hfa
            · exact hforall s2 h
        rw [hcongr]
        obtain ⟨z, hzmem, hzmax⟩ := exists_max_mem f xs (List.ne_nil_of_mem hymem)
        have hzsome : (xs.find? (fun s => decide (f x < f s ∧ ∀ s2 ∈ xs, f s2 ≤ f s))).isSome := by
          rw [List.find?_isSome]
          exact ⟨z, hzmem, by
            simp only [decide_eq_true_eq]
            exact ⟨lt_of_lt_of_le hylt (hzmax y hymem), hzmax⟩⟩
        obtain ⟨w, hw⟩ := Option.isSome_iff_exists.mp hzsome
        rw [hw]
        rfl
    · rw [if_neg hx, ih b0 m0, max_eq_left (not_lt.mp hx)]
      have hpred : ¬ (decide (m0 < f x ∧ ∀ s2 ∈ x :: xs, f s2 ≤ f x) = true) := by
        simp only [decide_eq_true_eq, not_and]
        intro hcontra
        exact absurd hcontra hx
      have hfind : List.find?
          (fun s => decide (m0 < f s ∧ ∀ s2 ∈ x :: xs, f s2 ≤ f s)) (x :: xs) =
          List.find? (fun s => decide (m0 < f s ∧ ∀ s2 ∈ x :: xs, f s2 ≤ f s)) xs :=
        List.find?_cons_of_neg xs hpred
      rw [hfind]
      have hcongr : xs.find? (fun s => decide (m0 < f s ∧ ∀ s2 ∈ x :: xs, f s2 ≤ f s)) =
          xs.find? (fun s => decide (m0 < f s ∧ ∀ s2 ∈ xs, f s2 ≤ f s)) := by
        apply find?_congr_mem
        intro a _
        apply decide_eq_decide.mpr
        constructor
        · intro ⟨hm, hforall⟩
          exact ⟨hm, fun s2 hs2 => hforall s2 (List.mem_cons_of_mem _ hs2)⟩
        · intro ⟨hm, hforall⟩
          refine ⟨hm, ?_⟩
          intro s2 hs2
          rcases List.mem_cons.mp hs2 with h | h
          · subst h; exact le_trans (not_lt.mp hx) (le_of_lt hm)
          · exact hforall s2 h
      rw [hcongr]

/-- First component of the arg-max fold. -/
theorem foldl_pickMax_fst (f : Nat → ℚ) (l : List Nat) (b0 : Nat) (m0 : ℚ) :
    (l.foldl (fun acc s => if acc.2 < f s then (s, f s) else acc) (b0, m0)).1 =
      (l.find? (fun s => decide (m0 < f s ∧ ∀ s2 ∈ l, f s2 ≤ f s))).getD b0 := by
  rw [foldl_pickMax]

/-- Second component of the arg-max fold. -/
theorem foldl_pickMax_snd (f : Nat → ℚ) (l : List Nat) (b0 : Nat) (m0 : ℚ) :
    (l.foldl (fun acc s => if acc.2 < f s then (s, f s) else acc) (b0, m0)).2 =
      l.foldl (fun m s => max m (f s)) m0 := by
  rw [foldl_pickMax]

/-- C4: whenever some candidate's (bucket, candidate) window holds fewer
than `warmup_samples` records, `get_num_steps` returns the first such
candidate in candidate order — independently of both random draws, so
before any exploration or exploitation.  Consequently, with
`warmup_samples` 2 and candidates 1, 2, 3, six decide-then-feed-back rounds
at one bucket decide exactly 1, 1, 2, 2, 3, 3. -/
theorem get_num_steps_warmup_first :
    (∀ (c : SpeculativeController) (batch_size : Nat) (rand_draw : ℚ)
        (rand_choice s0 : Nat),
        c.step_candidates.find?
            (fun s => decide ((c.history (c.bucketize batch_size, s)).length <
              c.warmup_samples)) = some s0 →
        c.get_num_steps batch_size rand_draw rand_choice = s0) ∧
    c4Run.2 = [1, 1, 2, 2, 3, 3] := by
  constructor
  · intro c bs r i s0 hfind
    simp only [SpeculativeController.get_num_steps, hfind]
  · decide

/-- Witness for C4: the first decision of the warmup scenario is candidate
1, whose empty window is below the warmup threshold. -/
theorem get_num_steps_warmup_first_witness :
    c4Init.get_num_steps 4 (1/2) 0 = 1 :=
  get_num_steps_warmup_first.1 c4Init 4 (1/2) 0 1 rfl

/-- Counterexample to C3 as stated: all three candidate windows for bucket
8 are past warmup (5 records each) and the exploration branch cannot
trigger at draw 1/2, candidate 1 has the strictly greatest aggregate
throughput 30 = (−30)/(−1) and it is positive, yet `get_num_steps` returns
2 — the exploitation loop silently skips any candidate whose latency sum is
not positive, which the spec's selection rule does not. -/
theorem get_num_steps_skips_nonpositive_latency_sum :
    cexCtrl.warmup_samples = 5 ∧
    (cexCtrl.history (8, 1)).length = 5 ∧
    (cexCtrl.history (8, 2)).length = 5 ∧
    (cexCtrl.history (8, 3)).length = 5 ∧
    ¬ ((1 : ℚ)/2 < cexCtrl.exploration_rate) ∧
    cexCtrl.bucketize 8 = 8 ∧
    cexCtrl.tpsOf 8 1 = 30 ∧
    cexCtrl.tpsOf 8 2 = 10 ∧
    cexCtrl.tpsOf 8 3 = 5 ∧
    cexCtrl.specExploit 8 = 1 ∧
    cexCtrl.get_num_steps 8 (1/2) 0 = 2 := by
  decide

/-- C3 amended (when every candidate's window is additionally backed by a
positive latency sum, the claim holds): when every candidate's (bucket,
candidate) window holds at least
`warmup_samples` records with a positive latency sum and the exploration
branch does not trigger, `get_num_steps` returns the earliest candidate in
candidate order whose aggregate throughput `sum(accepted)/sum(latency)` is
greatest, provided that throughput is positive, and `max_steps` otherwise —
that is, the spec-side selection `specExploit`. -/
theorem get_num_steps_exploits_best_throughput (c : SpeculativeController)
    (batch_size : Nat) (rand_draw : ℚ) (rand_choice : Nat)
    (hwarm : ∀ s ∈ c.step_candidates,
      c.warmup_samples ≤ (c.history (c.bucketize batch_size, s)).length)
    (hlat : ∀ s ∈ c.step_candidates,
      0 < ((c.history (c.bucketize batch_size, s)).map Prod.fst).sum)
    (hexp : ¬ rand_draw < c.exploration_rate) :
    c.get_num_steps batch_size rand_draw rand_choice =
      c.specExploit (c.bucketize batch_size) := by
  have hnone : c.step_candidates.find?
      (fun step => decide ((c.history (c.bucketize batch_size, step)).length <
        c.warmup_samples)) = none := by
    rw [List.find?_eq_none]
    intro a ha
    simpa using hwarm a ha
  simp only [SpeculativeController.get_num_steps, hnone, if_neg hexp]
  have hstep : ∀ acc, ∀ s ∈ c.step_candidates,
      c.exploitStep (c.bucketize batch_size) acc s =
        (if acc.2 < c.tpsOf (c.bucketize batch_size) s
          then (s, c.tpsOf (c.bucketize batch_size) s) else acc) := by
    intro acc s hs
    have hne : c.history (c.bucketize batch_size, s) ≠ [] := by
      intro hnil
      have h0 := hlat s hs
      rw [hnil] at h0
      simp at h0
    simp only [SpeculativeController.exploitStep, SpeculativeController.tpsOf]
    rw [if_neg (by simpa [List.isEmpty_iff] using hne), if_pos (hlat s hs)]
  rw [foldl_congr_mem c.step_candidates (1, -1) hstep,
    foldl_pickMax_fst (c.tpsOf (c.bucketize batch_size)),
    foldl_pickMax_snd (c.tpsOf (c.bucketize batch_size))]
  rcases eq_or_ne c.step_candidates [] with hnil | hnil
  · simp [SpeculativeController.specExploit, hnil]
  · obtain ⟨z, hzmem, hzmax⟩ :=
      exists_max_mem (c.tpsOf (c.bucketize batch_size)) c.step_candidates hnil
    have hzsome : (c.step_candidates.find? (fun s => decide (∀ s2 ∈ c.step_candidates,
        c.tpsOf (c.bucketize batch_size) s2 ≤ c.tpsOf (c.bucketize batch_size) s))).isSome := by
      rw [List.find?_isSome]
      exact ⟨z, hzmem, by simpa using hzmax⟩
    obtain ⟨s0, hs0⟩ := Option.isSome_iff_exists.mp hzsome
    have hs0mem := List.mem_of_find?_eq_some hs0
    have hs0max : ∀ s2 ∈ c.step_candidates,
        c.tpsOf (c.bucketize batch_size) s2 ≤ c.tpsOf (c.bucketize batch_size) s0 := by
      have := List.find?_some hs0
      simpa using this
    by_cases hpos : 0 < c.tpsOf (c.bucketize batch_size) s0
    · have hM : 0 < c.step_candidates.foldl
          (fun m s => max m (c.tpsOf (c.bucketize batch_size) s)) (-1) :=
        lt_of_lt_of_le hpos
          (le_foldl_max (c.tpsOf (c.bucketize batch_size)) c.step_candidates (-1) s0 hs0mem)
      rw [if_pos hM]
      have hcongr : c.step_candidates.find? (fun s => decide ((-1 : ℚ) <
          c.tpsOf (c.bucketize batch_size) s ∧ ∀ s2 ∈ c.step_candidates,
          c.tpsOf (c.bucketize batch_size) s2 ≤ c.tpsOf (c.bucketize batch_size) s)) =
          c.step_candidates.find? (fun s => decide (∀ s2 ∈ c.step_candidates,
          c.tpsOf (c.bucketize batch_size) s2 ≤ c.tpsOf (c.bucketize batch_size) s)) := by
        apply find?_congr_mem
        intro a _
        apply decide_eq_decide.mpr
        constructor
        · intro h
          exact h.2
        · intro h
          refine ⟨?_, h⟩
          calc (-1 : ℚ) < 0 := by norm_num
            _ < c.tpsOf (c.bucketize batch_size) s0 := hpos
            _ ≤ c.tpsOf (c.bucketize batch_size) a := h s0 hs0mem
      rw [hcongr, hs0]
      simp [SpeculativeController.specExploit, hs0, if_pos hpos]
    · have hM : ¬ 0 < c.step_candidates.foldl
          (fun m s => max m (c.tpsOf (c.bucketize batch_size) s)) (-1) := by
        apply not_lt.mpr
        apply foldl_max_le (c.tpsOf (c.bucketize batch_size)) c.step_candidates (-1) 0
          (by norm_num)
        intro a ha
        exact le_trans (hs0max a ha) (not_lt.mp hpos)
      rw [if_neg hM]
      simp [SpeculativeController.specExploit, hs0, if_neg hpos]

/-- Witness for C3, the bandit scenario: bucket 8, candidates 1, 2, 3 all
past warmup with throughputs 30, 50 and 40, exploration not triggered —
`get_num_steps` returns 2. -/
theorem get_num_steps_exploits_best_throughput_witness :
    c3Ctrl.get_num_steps 8 (1/2) 0 = 2 :=
  (get_num_steps_exploits_best_throughput c3Ctrl 8 (1/2) 0 (by decide) (by decide)
    (by decide)).trans (by decide)

/-- `get_step` changes only `bs_to_step`. -/
theorem get_step_preserves (t : SpeculativeTuner) (bs : Nat) :
    (t.get_step bs).1.max_step = t.max_step ∧
    (t.get_step bs).1.window_size = t.window_size ∧
    (t.get_step bs).1.target_acceptance_rate = t.target_acceptance_rate ∧
    (t.get_step bs).1.history = t.history := by
  rcases h : t.bs_to_step bs with _ | s <;>
    simp [SpeculativeTuner.get_step, h]

/-- `_adjust_step` changes only `bs_to_step`. -/
theorem adjust_step_preserves (t : SpeculativeTuner) (bs : Nat) :
    (t.adjust_step bs).max_step = t.max_step ∧
    (t.adjust_step bs).window_size = t.window_size ∧
    (t.adjust_step bs).target_acceptance_rate = t.target_acceptance_rate ∧
    (t.adjust_step bs).history = t.history := by
  simp only [SpeculativeTuner.adjust_step]
  split <;> simp

/-- `update` never changes the configuration fields. -/
theorem tuner_update_preserves (t : SpeculativeTuner) (bs step : Nat) (a d : ℤ) :
    (t.update bs step a d).max_step = t.max_step ∧
    (t.update bs step a d).window_size = t.window_size ∧
    (t.update bs step a d).target_acceptance_rate = t.target_acceptance_rate := by
  by_cases hd : d = 0
  · simp [SpeculativeTuner.update, hd]
  · simp only [SpeculativeTuner.update, if_neg hd]
    obtain ⟨h1, h2, h3, _⟩ := adjust_step_preserves
      { t with history := fun b =>
          if b = bs then some (dequeAppend t.window_size ((t.history bs).getD [])
            (step, (a : ℚ) / (d : ℚ)))
          else t.history b } bs
    exact ⟨h1, h2, h3⟩

/-- The history written by a successful `update`: the target batch size's
window gets the new record appended FIFO-style, all others are untouched. -/
theorem tuner_update_history (t : SpeculativeTuner) (bs step : Nat) (a : ℤ)
    {d : ℤ} (hd : d ≠ 0) :
    (t.update bs step a d).history = fun b =>
      if b = bs then some (dequeAppend t.window_size ((t.history bs).getD [])
        (step, (a : ℚ) / (d : ℚ)))
      else t.history b := by
  simp only [SpeculativeTuner.update, if_neg hd]
  exact (adjust_step_preserves _ bs).2.2.2

/-- `update_with_step` changes only `history`. -/
theorem update_with_step_preserves (c : SpeculativeController)
    (bs ns : Nat) (al : List ℤ) (lat : ℚ) :
    (c.update_with_step bs ns al lat).max_steps = c.max_steps ∧
    (c.update_with_step bs ns al lat).step_candidates = c.step_candidates ∧
    (c.update_with_step bs ns al lat).warmup_samples = c.warmup_samples ∧
    (c.update_with_step bs ns al lat).exploration_rate = c.exploration_rate ∧
    (c.update_with_step bs ns al lat).bs_bucket_size = c.bs_bucket_size ∧
    (c.update_with_step bs ns al lat).last_decision = c.last_decision := by
  simp [SpeculativeController.update_with_step]

/-- The placeholder `update` is the identity (helper form shared by several
developments below). -/
theorem controller_update_id (c : SpeculativeController) (bs : Nat)
    (al : List ℤ) (lat : ℚ) : c.update bs al lat = c := by
  simp [SpeculativeController.update]

/-- Appending to a bounded deque keeps exactly `min (n + 1) m` elements. -/
theorem dequeAppend_length {α : Type} (m : Nat) (q : List α) (x : α) :
    (dequeAppend m q x).length = min (q.length + 1) m := by
  simp [dequeAppend]
  omega

/-- Folding a record list into a bounded deque keeps the most recent
records in arrival order: the result is the concatenation with everything
before the last `m` records dropped. -/
theorem foldl_dequeAppend_eq_drop {α : Type} (m : Nat) :
    ∀ (rs : List α) (q : List α), q.length ≤ m →
      rs.foldl (dequeAppend m) q = (q ++ rs).drop (q.length + rs.length - m) := by
  intro rs
  induction rs with
  | nil =>
    intro q hq
    simp only [List.foldl_nil, List.length_nil, List.append_nil]
    rw [Nat.add_zero, Nat.sub_eq_zero_of_le hq, List.drop_zero]
  | cons x xs ih =>
    intro q hq
    rw [List.foldl_cons]
    have hlen : (dequeAppend m q x).length ≤ m := by
      rw [dequeAppend_length]
      omega
    rw [ih (dequeAppend m q x) hlen]
    show (((q ++ [x]).drop (q.length + 1 - m)) ++ xs).drop _ = _
    rw [← List.drop_append_of_le_length (by simp), List.drop_drop,
      dequeAppend_length, List.append_assoc, List.singleton_append]
    congr 1
    simp only [List.length_cons]
    omega

/-- Along any reachable tuner state the configuration fields equal the
construction arguments. -/
theorem tunerReach_preserves {ms w : Nat} {tg : ℚ} {t : SpeculativeTuner}
    (h : TunerReach ms w tg t) :
    t.max_step = ms ∧ t.window_size = w ∧ t.target_acceptance_rate = tg := by
  induction h with
  | init => exact ⟨rfl, rfl, rfl⟩
  | get_step bs hr ih =>
    obtain ⟨h1, h2, h3, _⟩ := get_step_preserves _ bs
    exact ⟨h1.trans ih.1, h2.trans ih.2.1, h3.trans ih.2.2⟩
  | update bs step a d hr ih =>
    obtain ⟨h1, h2, h3⟩ := tuner_update_preserves _ bs step a d
    exact ⟨h1.trans ih.1, h2.trans ih.2.1, h3.trans ih.2.2⟩

/-- Every window of a reachable tuner state is bounded by the configured
window size. -/
theorem tunerReach_window_bound {ms w : Nat} {tg : ℚ} {t : SpeculativeTuner}
    (h : TunerReach ms w tg t) : ∀ b, ((t.history b).getD []).length ≤ w := by
  induction h with
  | init => intro b; simp [SpeculativeTuner.mk0]
  | get_step bs hr ih =>
    intro b
    rw [(get_step_preserves _ bs).2.2.2]
    exact ih b
  | update bs step a d hr ih =>
    intro b
    by_cases hd : d = 0
    · subst hd
      simpa [SpeculativeTuner.update] using ih b
    · by_cases hb : b = bs
      · subst hb
        have hw := (tunerReach_preserves hr).2.1
        have hb2 := ih b
        simp [tuner_update_history _ b step a hd, dequeAppend_length]
        omega
      · simp only [tuner_update_history _ bs step a hd, if_neg hb]
        exact ih b

/-- Every window of a reachable controller state is bounded by the deque
capacity 20. -/
theorem ctrlReach_window_bound {n : Nat} {c : SpeculativeController}
    (h : CtrlReach n c) : ∀ k, (c.history k).length ≤ 20 := by
  induction h with
  | init => intro k; simp [SpeculativeController.init]
  | update bs al lat hr ih =>
    intro k
    rw [controller_update_id]
    exact ih k
  | update_with_step bs ns al lat hr ih =>
    intro k
    simp only [SpeculativeController.update_with_step]
    split
    · rw [dequeAppend_length]
      omega
    · exact ih k

/-- A run of successful updates at one batch size turns the tuner's window
into the FIFO fold of the appended records. -/
theorem tuner_runUpdates_window (w : Nat) :
    ∀ (inputs : List (Nat × ℤ × ℤ)) (t : SpeculativeTuner) (bs : Nat),
      t.window_size = w → (∀ r ∈ inputs, r.2.2 ≠ 0) →
      ((t.runUpdates bs inputs).history bs).getD [] =
        (inputs.map (fun r => (r.1, (r.2.1 : ℚ) / (r.2.2 : ℚ)))).foldl
          (dequeAppend w) ((t.history bs).getD []) := by
  intro inputs
  induction inputs with
  | nil => intro t bs _ _; rfl
  | cons r rs ih =>
    intro t bs hw hne
    simp only [SpeculativeTuner.runUpdates, List.foldl_cons, List.map_cons]
    have hstep := ih (t.update bs r.1 r.2.1 r.2.2) bs
      (by rw [(tuner_update_preserves t bs r.1 r.2.1 r.2.2).2.1, hw])
      (fun a ha => hne a (List.mem_cons_of_mem _ ha))
    simp only [SpeculativeTuner.runUpdates] at hstep
    rw [hstep]
    congr 1
    simp [tuner_update_history t bs r.1 r.2.1 (hne r (List.mem_cons_self r rs)), hw]

/-- A run of `update_with_step` calls at one batch size and step count turns
the key's window into the FIFO fold of the appended records. -/
theorem ctrl_runUpdates_window :
    ∀ (inputs : List (List ℤ × ℚ)) (c : SpeculativeController) (bs ns : Nat),
      (c.runUpdates bs ns inputs).history (c.bucketize bs, ns) =
        (inputs.map (fun r => (r.2, r.1.sum))).foldl
          (dequeAppend 20) (c.history (c.bucketize bs, ns)) := by
  intro inputs
  induction inputs with
  | nil => intro c bs ns; rfl
  | cons r rs ih =>
    intro c bs ns
    simp only [SpeculativeController.runUpdates, List.foldl_cons, List.map_cons]
    have hstep := ih (c.update_with_step bs ns r.1 r.2) bs ns
    simp only [SpeculativeController.runUpdates] at hstep
    rw [show (c.update_with_step bs ns r.1 r.2).bucketize bs = c.bucketize bs
      from rfl] at hstep
    rw [hstep]
    congr 1
    simp [SpeculativeController.update_with_step, SpeculativeController.bucketize]

/-- C6: per-key windows are bounded by their fixed capacity (10 for the
threshold tuner built with the default window size, 20 for the bandit
controller), and a run of more than capacity-many successful updates to one
key leaves exactly the capacity most recent records in arrival order
(oldest-first eviction): the window is the full record list with everything
but the last `capacity` records dropped. -/
theorem window_capacity_fifo :
    (∀ (ms : Nat) (tg : ℚ) (t : SpeculativeTuner), TunerReach ms 10 tg t →
      ∀ b, ((t.history b).getD []).length ≤ 10) ∧
    (∀ (n : Nat) (c : SpeculativeController), CtrlReach n c →
      ∀ k, (c.history k).length ≤ 20) ∧
    (∀ (ms w : Nat) (tg : ℚ) (bs : Nat) (inputs : List (Nat × ℤ × ℤ)),
      (∀ r ∈ inputs, r.2.2 ≠ 0) →
      (((SpeculativeTuner.mk0 ms w tg).runUpdates bs inputs).history bs).getD [] =
        (inputs.map (fun r => (r.1, (r.2.1 : ℚ) / (r.2.2 : ℚ)))).drop
          (inputs.length - w)) ∧
    (∀ (n bs ns : Nat) (inputs : List (List ℤ × ℚ)),
      ((SpeculativeController.init n).runUpdates bs ns inputs).history
          ((SpeculativeController.init n).bucketize bs, ns) =
        (inputs.map (fun r => (r.2, r.1.sum))).drop (inputs.length - 20)) := by
  refine ⟨?_, ?_, ?_, ?_⟩
  · intro ms tg t h b
    exact tunerReach_window_bound h b
  · intro n c h k
    exact ctrlReach_window_bound h k
  · intro ms w tg bs inputs hne
    rw [tuner_runUpdates_window w inputs (SpeculativeTuner.mk0 ms w tg) bs rfl hne]
    rw [show ((SpeculativeTuner.mk0 ms w tg).history bs).getD [] =
      ([] : List (Nat × ℚ)) from rfl]
    rw [foldl_dequeAppend_eq_drop w _ [] (by simp)]
    simp
  · intro n bs ns inputs
    rw [ctrl_runUpdates_window inputs (SpeculativeController.init n) bs ns]
    rw [show (SpeculativeController.init n).history
      ((SpeculativeController.init n).bucketize bs, ns) = ([] : List (ℚ × ℤ)) from rfl]
    rw [foldl_dequeAppend_eq_drop 20 _ [] (by simp)]
    simp

/-- Witness for C6: twelve successful updates into a window of size 10
keep exactly the last ten records. -/
theorem window_capacity_fifo_witness :
    (((SpeculativeTuner.mk0 3 10 (6/10)).runUpdates 5
        [(3, 1, 2), (3, 2, 2), (3, 3, 2), (3, 4, 2), (3, 5, 2), (3, 6, 2),
         (3, 7, 2), (3, 8, 2), (3, 9, 2), (3, 10, 2), (3, 11, 2), (3, 12, 2)]).history 5).getD [] =
      (([(3, 1, 2), (3, 2, 2), (3, 3, 2), (3, 4, 2), (3, 5, 2), (3, 6, 2),
         (3, 7, 2), (3, 8, 2), (3, 9, 2), (3, 10, 2), (3, 11, 2), (3, 12, 2)] :
          List (Nat × ℤ × ℤ)).map
        (fun r => (r.1, (r.2.1 : ℚ) / (r.2.2 : ℚ)))).drop
        (([(3, 1, 2), (3, 2, 2), (3, 3, 2), (3, 4, 2), (3, 5, 2), (3, 6, 2),
           (3, 7, 2), (3, 8, 2), (3, 9, 2), (3, 10, 2), (3, 11, 2), (3, 12, 2)] :
            List (Nat × ℤ × ℤ)).length - 10) :=
  window_capacity_fifo.2.2.1 3 10 (6/10) 5
    [(3, 1, 2), (3, 2, 2), (3, 3, 2), (3, 4, 2), (3, 5, 2), (3, 6, 2),
     (3, 7, 2), (3, 8, 2), (3, 9, 2), (3, 10, 2), (3, 11, 2), (3, 12, 2)]
    (by decide)

/-- Along any reachable controller state the configuration fields equal
their initial values. -/
theorem ctrlReach_preserves {n : Nat} {c : SpeculativeController}
    (h : CtrlReach n c) :
    c.max_steps = n ∧ c.step_candidates = List.range' 1 n ∧
    c.exploration_rate = 1/10 := by
  induction h with
  | init => exact ⟨rfl, rfl, rfl⟩
  | update bs al lat hr ih =>
    rw [controller_update_id]
    exact ih
  | update_with_step bs ns al lat hr ih =>
    obtain ⟨h1, h2, _, h4, _, _⟩ := update_with_step_preserves _ bs ns al lat
    exact ⟨h1.trans ih.1, h2.trans ih.2.1, h4.trans ih.2.2⟩

/-- `_adjust_step` writes only suggestions inside `[1, max_step]`, given
that all existing suggestions are in range. -/
theorem adjust_step_bound {ms : Nat} (t : SpeculativeTuner) (bs : Nat)
    (hmax : t.max_step = ms) (hms : 1 ≤ ms)
    (hinv : ∀ b v, t.bs_to_step b = some v → 1 ≤ v ∧ v ≤ ms) :
    ∀ b v, (t.adjust_step bs).bs_to_step b = some v → 1 ≤ v ∧ v ≤ ms := by
  intro b v hv
  simp only [SpeculativeTuner.adjust_step] at hv
  split at hv
  · exact hinv b v hv
  · by_cases hb : b = bs
    · subst hb
      simp only [if_pos rfl] at hv
      have hcur : 1 ≤ (t.bs_to_step b).getD t.max_step ∧
          (t.bs_to_step b).getD t.max_step ≤ ms := by
        rcases hu : t.bs_to_step b with _ | u
        · simp only [Option.getD_none, hmax]
          exact ⟨hms, le_refl _⟩
        · simpa using hinv b u hu
      have hv2 := Option.some.inj hv
      split_ifs at hv2 <;> omega
    · simp only [if_neg hb] at hv
      exact hinv b v hv

/-- Every suggestion stored by a reachable tuner state lies in
`[1, max_step]`, provided `max_step ≥ 1`. -/
theorem tunerReach_bs_to_step_bound {ms w : Nat} {tg : ℚ} {t : SpeculativeTuner}
    (h : TunerReach ms w tg t) (hms : 1 ≤ ms) :
    ∀ b v, t.bs_to_step b = some v → 1 ≤ v ∧ v ≤ ms := by
  induction h with
  | init => intro b v hv; cases hv
  | @get_step t bs hr ih =>
    intro b v hv
    rcases hbs : t.bs_to_step bs with _ | s
    · simp only [SpeculativeTuner.get_step, hbs] at hv
      by_cases hb : b = bs
      · subst hb
        rw [if_pos rfl] at hv
        have hvv := Option.some.inj hv
        subst hvv
        rw [(tunerReach_preserves hr).1]
        exact ⟨hms, le_refl _⟩
      · rw [if_neg hb] at hv
        exact ih b v hv
    · simp only [SpeculativeTuner.get_step, hbs] at hv
      exact ih b v hv
  | @update t bs step a d hr ih =>
    intro b v hv
    by_cases hd : d = 0
    · subst hd
      simp only [SpeculativeTuner.update, if_pos rfl] at hv
      exact ih b v hv
    · simp only [SpeculativeTuner.update, if_neg hd] at hv
      refine adjust_step_bound _ bs ?_ hms ?_ b v hv
      · exact (tunerReach_preserves hr).1
      · intro b2 v2 hv2
        exact ih b2 v2 hv2

/-- The exploitation fold's selected step is either the initial accumulator
step or a member of the folded candidate list. -/
theorem exploit_foldl_mem (c : SpeculativeController) (bucket : Nat) :
    ∀ (l : List Nat) (acc : Nat × ℚ),
      (l.foldl (c.exploitStep bucket) acc).1 = acc.1 ∨
      (l.foldl (c.exploitStep bucket) acc).1 ∈ l := by
  intro l
  induction l with
  | nil => intro acc; left; rfl
  | cons x xs ih =>
    intro acc
    rw [List.foldl_cons]
    rcases ih (c.exploitStep bucket acc x) with h | h
    · rw [h]
      simp only [SpeculativeController.exploitStep]
      split
      · left; rfl
      · split
        · split
          · right; exact List.mem_cons_self x xs
          · left; rfl
        · left; rfl
    · right; exact List.mem_cons_of_mem _ h

/-- C5: every value returned by `SpeculativeTuner.get_step` on a reachable
tuner state, and by `SpeculativeController.get_num_steps` on a reachable
controller state, lies in `[1, max_step]`, provided the configured maximum
is at least 1. -/
theorem steps_in_range :
    (∀ (ms w : Nat) (tg : ℚ) (t : SpeculativeTuner) (b : Nat),
      TunerReach ms w tg t → 1 ≤ ms →
      1 ≤ (t.get_step b).2 ∧ (t.get_step b).2 ≤ ms) ∧
    (∀ (n : Nat) (c : SpeculativeController) (b : Nat) (r : ℚ) (i : Nat),
      CtrlReach n c → 1 ≤ n →
      1 ≤ c.get_num_steps b r i ∧ c.get_num_steps b r i ≤ n) := by
  constructor
  · intro ms w tg t b h hms
    rcases hbs : t.bs_to_step b with _ | s
    · have : (t.get_step b).2 = t.max_step := by
        simp [SpeculativeTuner.get_step, hbs]
      rw [this, (tunerReach_preserves h).1]
      exact ⟨hms, le_refl _⟩
    · have : (t.get_step b).2 = s := by
        simp [SpeculativeTuner.get_step, hbs]
      rw [this]
      exact tunerReach_bs_to_step_bound h hms b s hbs
  · intro n c b r i h hn
    have hmem_bound : ∀ s ∈ c.step_candidates, 1 ≤ s ∧ s ≤ n := by
      intro s hs
      rw [(ctrlReach_preserves h).2.1, List.mem_range'_1] at hs
      omega
    have hlen : c.step_candidates.length = n := by
      rw [(ctrlReach_preserves h).2.1, List.length_range']
    rcases hf : c.step_candidates.find?
        (fun step => decide ((c.history (c.bucketize b, step)).length <
          c.warmup_samples)) with _ | s
    · simp only [SpeculativeController.get_num_steps, hf]
      by_cases hr : r < c.exploration_rate
      · rw [if_pos hr]
        have hidx : i % c.step_candidates.length < c.step_candidates.length := by
          rw [hlen]
          exact Nat.mod_lt _ hn
        rw [List.getD_eq_getElem _ _ hidx]
        exact hmem_bound _ (List.getElem_mem hidx)
      · rw [if_neg hr]
        by_cases hpos : 0 < (c.step_candidates.foldl
            (c.exploitStep (c.bucketize b)) (1, -1)).2
        · rw [if_pos hpos]
          rcases exploit_foldl_mem c (c.bucketize b) c.step_candidates (1, -1) with
            hone | hmem
          · rw [hone]
            exact ⟨le_refl _, hn⟩
          · exact hmem_bound _ hmem
        · rw [if_neg hpos, (ctrlReach_preserves h).1]
          exact ⟨hn, le_refl _⟩
    · simp only [SpeculativeController.get_num_steps, hf]
      exact hmem_bound s (List.mem_of_find?_eq_some hf)

/-- Witness for C5: on the freshly constructed tuner and controller both
getters return a value inside the range. -/
theorem steps_in_range_witness :
    1 ≤ ((SpeculativeTuner.mk0 3 10 (6/10)).get_step 7).2 ∧
    ((SpeculativeTuner.mk0 3 10 (6/10)).get_step 7).2 ≤ 3 :=
  steps_in_range.1 3 10 (6/10) (SpeculativeTuner.mk0 3 10 (6/10)) 7
    TunerReach.init (by decide)

/-- C10: the tuner is deterministic — its embedding needed no random
oracle, and running one call sequence from one state admits exactly one
final state and one list of returned values, so two instances constructed
alike and driven alike stay identical.  The bandit controller does not
share this: one state of `c3Ctrl` admits two different `get_num_steps`
outcomes, depending on the global random draw. -/
theorem tuner_deterministic_controller_not :
    (∀ (t : SpeculativeTuner) (ops : List TunerOp) (t1 t2 : SpeculativeTuner)
        (o1 o2 : List (Option Nat)),
      TunerRun t ops t1 o1 → TunerRun t ops t2 o2 → t1 = t2 ∧ o1 = o2) ∧
    (∃ (c : SpeculativeController) (b o1 o2 : Nat),
      CtrlGet c b o1 ∧ CtrlGet c b o2 ∧ o1 ≠ o2) := by
  constructor
  · intro t ops t1 t2 o1 o2 h1 h2
    induction h1 generalizing t2 o2 with
    | nil => cases h2; exact ⟨rfl, rfl⟩
    | cons op hrest ih =>
      cases h2 with
      | cons _ hrest2 =>
        obtain ⟨he, ho⟩ := ih _ _ hrest2
        exact ⟨he, by rw [ho]⟩
  · refine ⟨c3Ctrl, 8, c3Ctrl.get_num_steps 8 (1/2) 0,
      c3Ctrl.get_num_steps 8 0 0, ?_, ?_, ?_⟩
    · exact CtrlGet.draw c3Ctrl 8 (1/2) 0 (by decide) (by decide)
    · exact CtrlGet.draw c3Ctrl 8 0 0 (by decide) (by decide)
    · decide

/-- Witness for C10: a one-call run of the fresh tuner is settled uniquely
by the run relation. -/
theorem tuner_deterministic_witness :
    ((SpeculativeTuner.mk0 3 10 (6/10)).execOp (TunerOp.getStep 2)).1 =
      ((SpeculativeTuner.mk0 3 10 (6/10)).execOp (TunerOp.getStep 2)).1 ∧
    [((SpeculativeTuner.mk0 3 10 (6/10)).execOp (TunerOp.getStep 2)).2] =
      [((SpeculativeTuner.mk0 3 10 (6/10)).execOp (TunerOp.getStep 2)).2] :=
  tuner_deterministic_controller_not.1 (SpeculativeTuner.mk0 3 10 (6/10))
    [TunerOp.getStep 2] _ _ _ _
    (TunerRun.cons (TunerOp.getStep 2) TunerRun.nil)
    (TunerRun.cons (TunerOp.getStep 2) TunerRun.nil)

end Spec2Proof
